import Mathlib

/-!
Verification of the Marathi Wikipedia corpus harvester
(`wikipedia_Dump.py`).

The script is a multi-threaded harvester: worker threads repeatedly sample
random article titles, deduplicate them against a shared in-memory set
(persisted to a seen-titles file), fetch and clean article content, and append
accepted articles to a corpus file, all guarded by one lock.  This file gives
a shallow embedding of the script:

* the pure cleaning function `clean_text` and the word counter, over
  `List Char` (section 1);
* the startup load of the seen-titles file (section 2);
* the retry loop around `wikipedia.random` (section 3);
* a sequential model of one worker-loop iteration (section 4);
* a small-step interleaving semantics of the whole process — worker threads
  plus the monitor thread, with the lock-protected regions as atomic steps
  (section 5);

followed by the theorems about these definitions.
-/

namespace WikipediaDump

/-! ## Section 1: the cleaning function `clean_text` -/

/-- Whitespace as matched by Python's `\s` (Unicode mode) and `str.strip`:
ASCII whitespace plus the Unicode space separators. -/
def isPySpace (c : Char) : Bool :=
  c = ' ' || c = '\t' || c = '\n' || c = '\r' || c = '\u000b' || c = '\u000c' ||
  c = '\u001c' || c = '\u001d' || c = '\u001e' || c = '\u001f' ||
  c = '\u0085' || c = ' ' || c = ' ' ||
  (0x2000 ≤ c.toNat && c.toNat ≤ 0x200a) ||
  c = ' ' || c = ' ' || c = ' ' || c = ' ' || c = '　'

/-- Characters kept by the first regex of `clean_text`: the character class
`[ऀ-ॿ\s।,!?०१२३४५६७८९]` (Devanagari block, whitespace, danda,
comma, `!`, `?`, Devanagari digits — the last two groups are already inside
the Devanagari block but appear in the source regex). -/
def allowedChar (c : Char) : Bool :=
  (0x900 ≤ c.toNat && c.toNat ≤ 0x97F) || isPySpace c ||
  c = '।' || c = ',' || c = '!' || c = '?' ||
  c = '०' || c = '१' || c = '२' || c = '३' || c = '४' ||
  c = '५' || c = '६' || c = '७' || c = '८' || c = '९'

/-- `re.sub(pattern+, ' ', text)` for a character predicate `p`: every maximal
run of characters satisfying `p` is replaced by one space.  The flag records
whether the previous character was part of such a run. -/
def subRunsAux (p : Char → Bool) : Bool → List Char → List Char
  | _, [] => []
  | inRun, c :: cs =>
    if p c then
      if inRun then subRunsAux p true cs else ' ' :: subRunsAux p true cs
    else c :: subRunsAux p false cs

/-- Replace every maximal run of characters satisfying `p` by a single space. -/
def subRuns (p : Char → Bool) (l : List Char) : List Char :=
  subRunsAux p false l

/-- Python `str.strip()`: drop leading and trailing whitespace. -/
def stripList (l : List Char) : List Char :=
  (((l.dropWhile isPySpace).reverse).dropWhile isPySpace).reverse

/-- `clean_text` on character lists: replace runs of disallowed characters by
a space, collapse whitespace runs to single spaces, then strip. -/
def cleanList (l : List Char) : List Char :=
  stripList (subRuns isPySpace (subRuns (fun c => !allowedChar c) l))

/-- The source's `clean_text` on strings. -/
def clean_text (s : String) : String :=
  String.mk (cleanList s.toList)

/-- Auxiliary word counter: number of maximal runs of non-whitespace
characters, i.e. `len(s.split())` in Python.  The flag records whether the
previous character was inside a word. -/
def countWordsAux : Bool → List Char → Nat
  | _, [] => 0
  | inWord, c :: cs =>
    if isPySpace c then countWordsAux false cs
    else (if inWord then 0 else 1) + countWordsAux true cs

/-- `len(content.split())`: the word count used by the ≤ 50 gate. -/
def wordCount (s : String) : Nat :=
  countWordsAux false s.toList

/-! ## Section 2: configuration constants and the seen-titles load -/

/-- `NUM_ARTICLES` from the source: the target article count. -/
def NUM_ARTICLES : Nat := 800000000000

/-- `NUM_WORKER_THREADS` from the source. -/
def NUM_WORKER_THREADS : Nat := 8

/-- `BATCH_SIZE` from the source: titles requested per `wikipedia.random` call. -/
def BATCH_SIZE : Nat := 20

/-- `MAX_RETRIES` from the source. -/
def MAX_RETRIES : Nat := 4

/-- `RETRY_DELAY` from the source (seconds; the base of the linear backoff). -/
def RETRY_DELAY : Nat := 10

/-- `CONSECUTIVE_EMPTY_THRESHOLD` from the source. -/
def CONSECUTIVE_EMPTY_THRESHOLD : Nat := 100

/-- The run-static configuration surface (target, empty-batch stop threshold,
batch size).  The source fixes these to the constants above; the theorems
quantify over them. -/
structure Params where
  target : Nat
  threshold : Nat
  batchSize : Nat

/-- The configuration the source actually runs with. -/
def defaultParams : Params :=
  ⟨NUM_ARTICLES, CONSECUTIVE_EMPTY_THRESHOLD, BATCH_SIZE⟩

/-- `startsWith pat l`: `pat` is an initial segment of `l`. -/
def startsWith : List Char → List Char → Bool
  | [], _ => true
  | _ :: _, [] => false
  | p :: ps, c :: cs => p = c && startsWith ps cs

/-- Python's substring test `pat in t` on character lists. -/
def hasSub (pat : List Char) : List Char → Bool
  | [] => pat.isEmpty
  | c :: cs => startsWith pat (c :: cs) || hasSub pat cs

/-- The `invalid_patterns` list from the source (markers of non-article
pages: parentheses, meta/disambiguation/help/template/talk markers). -/
def invalid_patterns : List String :=
  ["(", ")", "विकिपीडिया", "disambiguation", "मदत", "साचा", "चर्चा"]

/-- `any(patt in t for patt in invalid_patterns)`. -/
def hasInvalidPattern (t : String) : Bool :=
  invalid_patterns.any (fun p => hasSub p.toList t.toList)

/-- `line.strip()` on strings. -/
def stripLine (s : String) : String :=
  String.mk (stripList s.toList)

/-- The partition of a sampled batch into already-seen and new titles,
performed under the lock (lines 108–111): each title is added to the seen set
as it is examined, so duplicates inside one batch are claimed once.  Returns
the list of newly-claimed titles in batch order. -/
def claimNew (seen : List String) : List String → List String
  | [] => []
  | t :: ts => if t ∈ seen then claimNew seen ts else t :: claimNew (t :: seen) ts

/-- The identifiers recorded in a seen-store file given as its list of lines:
each line stripped, blank lines skipped (lines 44–48). -/
def fileIds (lines : List String) : List String :=
  (lines.map stripLine).filter (fun t => t ≠ "")

/-- The startup load of the seen-titles file (lines 43–59): read one stripped
identifier per non-blank line, deduplicate via the set container, then filter
out every identifier containing an invalid pattern. -/
def loadSeen (lines : List String) : List String :=
  (claimNew [] (fileIds lines)).filter (fun t => !hasInvalidPattern t)

/-! ## Section 3: the retry loop around `wikipedia.random` (lines 86–103) -/

/-- Outcome of one attempt of `wikipedia.random`, as classified by line 94:
success, a transient error (message contains "HTTP" or "timed out"), or a
non-transient ("critical") error. -/
inductive AttemptRes where
  | ok (batch : List String)
  | transient
  | permanent

/-- How the retry `for` loop ends: `success` (line 91 `break`),
`aborted` (line 99 `break` on a critical error, leaving `titles_batch = []`),
or `exhausted` (the `for`-`else` at line 100, after `MAX_RETRIES` transient
failures). -/
inductive SampleEnd where
  | success (batch : List String)
  | aborted
  | exhausted

/-- Trace of one execution of the retry loop: how it ended, how many attempts
were issued, and the backoff sleeps taken (line 96), in order. -/
structure SampleTrace where
  sEnd : SampleEnd
  attempts : Nat
  delays : List Nat

/-- The retry loop from attempt number `a` with `fuel` attempts remaining.
`o n` is the outcome the external API gives to attempt number `n`. -/
def sampleGo (o : Nat → AttemptRes) : Nat → Nat → SampleTrace
  | _, 0 => ⟨.exhausted, 0, []⟩
  | a, fuel + 1 =>
    match o a with
    | .ok b => ⟨.success b, 1, []⟩
    | .permanent => ⟨.aborted, 1, []⟩
    | .transient =>
      let r := sampleGo o (a + 1) fuel
      ⟨r.sEnd, r.attempts + 1, RETRY_DELAY * a :: r.delays⟩

/-- The whole retry loop: attempts numbered `1 .. MAX_RETRIES` (line 88). -/
def sampleBatch (o : Nat → AttemptRes) : SampleTrace :=
  sampleGo o 1 MAX_RETRIES

/-! ## Section 4: sequential model of one worker-loop iteration -/

/-- Shared state of the process: the in-memory seen set, the titles appended
to the seen-store file this run, the titles whose cleaned content was appended
to the corpus sink, and the two counters. -/
structure WState where
  seen : List String
  fileApp : List String
  sink : List String
  total : Nat
  empty : Nat

/-- Outcome of `wikipedia.page(title, auto_suggest=False, redirect=False)`
followed by `page.content`: either raw content, or one of the handled
exceptions (lines 159–164), all of which skip the title. -/
inductive FetchRes where
  | content (raw : String)
  | redirectErr
  | disambigErr
  | pageErr
  | wikiErr
  | otherErr

/-- The per-batch fetch-and-write loop (lines 131–164), sequentially: for
each newly-claimed title, re-check the target under the lock (line 134,
`break`), fetch, clean, reject word counts ≤ 50, otherwise append the title's
cleaned content to the sink and increment the total.  Returns the final state
and `articles_written_in_batch`. -/
def fetchLoop (P : Params) (fetch : String → FetchRes) :
    WState → Nat → List String → WState × Nat
  | s, w, [] => (s, w)
  | s, w, t :: ts =>
    if P.target ≤ s.total then (s, w)
    else
      match fetch t with
      | .content raw =>
        if wordCount (clean_text raw) ≤ 50 then fetchLoop P fetch s w ts
        else fetchLoop P fetch
          { s with sink := s.sink ++ [t], total := s.total + 1 } (w + 1) ts
      | _ => fetchLoop P fetch s w ts

/-- One worker-loop iteration after a batch has been obtained (lines
106–170): claim the new titles under the lock, increment the empty counter
and bail out if none, otherwise reset the counter to 0, append the new titles
to the seen-store (unless the append fails: `persistOk = false`), run the
fetch-and-write loop, and increment the empty counter if it wrote nothing.
Returns the final state and `articles_written_in_batch`. -/
def workerIteration (P : Params) (fetch : String → FetchRes) (persistOk : Bool)
    (batch : List String) (s : WState) : WState × Nat :=
  let new := claimNew s.seen batch
  if new.isEmpty then ({ s with empty := s.empty + 1 }, 0)
  else
    let s1 : WState :=
      { s with seen := s.seen ++ new, empty := 0,
               fileApp := if persistOk then s.fileApp ++ new else s.fileApp }
    let r := fetchLoop P fetch s1 0 new
    if r.2 = 0 then ({ r.1 with empty := r.1.empty + 1 }, 0) else r

/-- Why a worker (or the monitor) stops (lines 79–84). -/
inductive StopReason where
  | targetReached
  | noNewArticles

/-- What the worker does next after one pass over its loop body. -/
inductive RoundNext where
  | stop (r : StopReason)
  | goOn (s : WState)

/-- One pass over the body of `worker`'s `while True` (lines 76–170): the
stop check under the lock, then the retry-wrapped sampling, then the batch
processing.  `cooldown` records whether the 30-second pause of line 102 was
taken.  On an `exhausted` sampling the state is unchanged (`continue`); on an
`aborted` sampling the batch is processed as `[]` with no cooldown. -/
def workerRound (P : Params) (o : Nat → AttemptRes) (fetch : String → FetchRes)
    (persistOk : Bool) (s : WState) : RoundNext × Bool :=
  if P.target ≤ s.total then (.stop .targetReached, false)
  else if P.threshold ≤ s.empty then (.stop .noNewArticles, false)
  else
    match (sampleBatch o).sEnd with
    | .exhausted => (.goOn s, true)
    | .aborted => (.goOn (workerIteration P fetch persistOk [] s).1, false)
    | .success b => (.goOn (workerIteration P fetch persistOk b s).1, false)

/-- Result of running several worker rounds in sequence. -/
inductive RunRes where
  | stopped (r : StopReason)
  | running (s : WState)

/-- Run `n` worker rounds in sequence (a single worker, no interference). -/
def runRounds (P : Params) (o : Nat → AttemptRes) (fetch : String → FetchRes)
    (persistOk : Bool) : Nat → WState → RunRes
  | 0, s => .running s
  | n + 1, s =>
    match workerRound P o fetch persistOk s with
    | (.stop r, _) => .stopped r
    | (.goOn s', _) => runRounds P o fetch persistOk n s'

/-! ## Section 5: interleaving semantics of the whole process

Worker threads and the monitor run concurrently; the seen set and the two
counters are guarded by one lock, so each lock-protected region of the source
is one atomic step here.  A worker's control state: -/

/-- Control state of one worker thread.
`top`: about to take the stop check (line 78);
`ready`: passed the stop check, about to sample and then enter the
dedup/persist critical section;
`fetch pending w`: in the per-batch loop with `pending` titles left and `w`
articles written this batch, about to take the per-title target check
(line 133);
`body t pending w`: passed the per-title check for `t`, fetch in flight;
`done`: returned. -/
inductive Phase where
  | top
  | ready
  | fetch (pending : List String) (w : Nat)
  | body (t : String) (pending : List String) (w : Nat)
  | done

/-- Global configuration: shared state plus each thread's phase and whether
the monitor thread is still running. -/
structure Sys where
  seen : List String
  fileApp : List String
  sink : List String
  total : Nat
  empty : Nat
  threads : List Phase
  monitorOn : Bool

/-- The stop condition checked by workers (lines 79–84) and the monitor
(lines 180–185). -/
def stopCond (P : Params) (total empty : Nat) : Bool :=
  decide (P.target ≤ total) || decide (P.threshold ≤ empty)

/-- The titles a worker currently holds claimed but not yet resolved
(pending fetches, including the in-flight one). -/
def activeOf : Phase → List String
  | .fetch pending _ => pending
  | .body t pending _ => t :: pending
  | _ => []

/-- All claimed-but-unresolved titles across the thread pool. -/
def actAll (ts : List Phase) : List String :=
  (ts.map activeOf).flatten

/-- Interleaved small-step semantics.  Each constructor is one atomic event:
either a lock-protected region or a single local action.  Sampled batches and
fetch outcomes are chosen nondeterministically by the step (they come from
the external API); batches are bounded by the configured batch size. -/
inductive Step (P : Params) : Sys → Sys → Prop
  | checkStop (seen fileApp sink : List String) (total empty : Nat)
      (l r : List Phase) (mon : Bool)
      (h : stopCond P total empty = true) :
      Step P ⟨seen, fileApp, sink, total, empty, l ++ Phase.top :: r, mon⟩
             ⟨seen, fileApp, sink, total, empty, l ++ Phase.done :: r, mon⟩
  | checkGo (seen fileApp sink : List String) (total empty : Nat)
      (l r : List Phase) (mon : Bool)
      (h : stopCond P total empty = false) :
      Step P ⟨seen, fileApp, sink, total, empty, l ++ Phase.top :: r, mon⟩
             ⟨seen, fileApp, sink, total, empty, l ++ Phase.ready :: r, mon⟩
  | sampleFail (seen fileApp sink : List String) (total empty : Nat)
      (l r : List Phase) (mon : Bool) :
      Step P ⟨seen, fileApp, sink, total, empty, l ++ Phase.ready :: r, mon⟩
             ⟨seen, fileApp, sink, total, empty, l ++ Phase.top :: r, mon⟩
  | claimEmpty (seen fileApp sink : List String) (total empty : Nat)
      (l r : List Phase) (mon : Bool) (batch : List String)
      (hb : batch.length ≤ P.batchSize)
      (h : claimNew seen batch = []) :
      Step P ⟨seen, fileApp, sink, total, empty, l ++ Phase.ready :: r, mon⟩
             ⟨seen, fileApp, sink, total, empty + 1, l ++ Phase.top :: r, mon⟩
  | claimGo (seen fileApp sink : List String) (total empty : Nat)
      (l r : List Phase) (mon : Bool) (batch : List String) (pk : Bool)
      (new : List String)
      (hb : batch.length ≤ P.batchSize)
      (hnew : claimNew seen batch = new) (hne : new ≠ []) :
      Step P ⟨seen, fileApp, sink, total, empty, l ++ Phase.ready :: r, mon⟩
             ⟨seen ++ new, fileApp ++ (if pk then new else []), sink, total, 0,
              l ++ Phase.fetch new 0 :: r, mon⟩
  | titleCheckStop (seen fileApp sink : List String) (total empty : Nat)
      (l r : List Phase) (mon : Bool) (t : String) (ts : List String) (w : Nat)
      (h : P.target ≤ total) :
      Step P ⟨seen, fileApp, sink, total, empty, l ++ Phase.fetch (t :: ts) w :: r, mon⟩
             ⟨seen, fileApp, sink, total, (if w = 0 then empty + 1 else empty),
              l ++ Phase.top :: r, mon⟩
  | titleCheckGo (seen fileApp sink : List String) (total empty : Nat)
      (l r : List Phase) (mon : Bool) (t : String) (ts : List String) (w : Nat)
      (h : total < P.target) :
      Step P ⟨seen, fileApp, sink, total, empty, l ++ Phase.fetch (t :: ts) w :: r, mon⟩
             ⟨seen, fileApp, sink, total, empty, l ++ Phase.body t ts w :: r, mon⟩
  | bodyWrite (seen fileApp sink : List String) (total empty : Nat)
      (l r : List Phase) (mon : Bool) (t : String) (ts : List String) (w : Nat)
      (raw : String)
      (h : 50 < wordCount (clean_text raw)) :
      Step P ⟨seen, fileApp, sink, total, empty, l ++ Phase.body t ts w :: r, mon⟩
             ⟨seen, fileApp, sink ++ [t], total + 1, empty,
              l ++ Phase.fetch ts (w + 1) :: r, mon⟩
  | bodyShort (seen fileApp sink : List String) (total empty : Nat)
      (l r : List Phase) (mon : Bool) (t : String) (ts : List String) (w : Nat)
      (raw : String)
      (h : wordCount (clean_text raw) ≤ 50) :
      Step P ⟨seen, fileApp, sink, total, empty, l ++ Phase.body t ts w :: r, mon⟩
             ⟨seen, fileApp, sink, total, empty, l ++ Phase.fetch ts w :: r, mon⟩
  | bodyErr (seen fileApp sink : List String) (total empty : Nat)
      (l r : List Phase) (mon : Bool) (t : String) (ts : List String) (w : Nat) :
      Step P ⟨seen, fileApp, sink, total, empty, l ++ Phase.body t ts w :: r, mon⟩
             ⟨seen, fileApp, sink, total, empty, l ++ Phase.fetch ts w :: r, mon⟩
  | fetchNil (seen fileApp sink : List String) (total empty : Nat)
      (l r : List Phase) (mon : Bool) (w : Nat) :
      Step P ⟨seen, fileApp, sink, total, empty, l ++ Phase.fetch [] w :: r, mon⟩
             ⟨seen, fileApp, sink, total, (if w = 0 then empty + 1 else empty),
              l ++ Phase.top :: r, mon⟩
  | monStop (seen fileApp sink : List String) (total empty : Nat)
      (ths : List Phase)
      (h : stopCond P total empty = true) :
      Step P ⟨seen, fileApp, sink, total, empty, ths, true⟩
             ⟨seen, fileApp, sink, total, empty, ths, false⟩
  | monTick (seen fileApp sink : List String) (total empty : Nat)
      (ths : List Phase)
      (h : stopCond P total empty = false) :
      Step P ⟨seen, fileApp, sink, total, empty, ths, true⟩
             ⟨seen, fileApp, sink, total, empty, ths, true⟩

/-- Reachability: zero or more interleaved steps. -/
def Reach (P : Params) : Sys → Sys → Prop :=
  Relation.ReflTransGen (Step P)

/-- The process's initial configuration with `n` worker threads: seen set
hydrated from the file and filtered, `total_articles_written` initialised to
its size (line 60), counters and sinks fresh, monitor running. -/
def initSys (lines : List String) (n : Nat) : Sys :=
  ⟨loadSeen lines, [], [], (loadSeen lines).length, 0, List.replicate n Phase.top, true⟩

/-- A thread that has returned. -/
def phaseDone : Phase → Bool
  | .done => true
  | _ => false

/-- The run is over: all workers returned and the monitor stopped. -/
def AllStopped (c : Sys) : Prop :=
  c.threads.all phaseDone = true ∧ c.monitorOn = false

/-- No two adjacent whitespace characters ("single spaces"). -/
def noTwoSp : List Char → Bool
  | c :: d :: rest => (!(isPySpace c && isPySpace d)) && noTwoSp (d :: rest)
  | _ => true

/-- The predicate of claim C9 read literally: the string consists solely of
characters in the cleaner's allow-list, with single (non-adjacent) spaces. -/
def allowedSingleSpaced (l : List Char) : Bool :=
  l.all allowedChar && noTwoSp l

/-! ## Section 6: statements of the claims that fail, invariants, measures,
and concrete instances used by counterexamples and witnesses -/

/-- Claim C1 as stated: in any run, no identifier is written to the corpus
sink more than once, and after the run the seen-store file (its preexisting
identifiers followed by the appended ones) contains no identifier more than
once. -/
def ClaimC1 : Prop :=
  ∀ (P : Params) (lines : List String) (n : Nat) (c : Sys),
    Reach P (initSys lines n) c →
      c.sink.Nodup ∧ (AllStopped c → (fileIds lines ++ c.fileApp).Nodup)

/-- Claim C2 as stated: `consecutive_empty_batches` is reset to 0 exactly on
iterations where at least one new identifier is claimed *and* an accepted
write occurs; on every other iteration it is not reset (so it only grows by
one). -/
def ClaimC2 : Prop :=
  ∀ (P : Params) (fetch : String → FetchRes) (pk : Bool)
    (batch : List String) (s : WState),
    ((claimNew s.seen batch ≠ [] ∧ 0 < (workerIteration P fetch pk batch s).2) →
      (workerIteration P fetch pk batch s).1.empty = 0) ∧
    (¬(claimNew s.seen batch ≠ [] ∧ 0 < (workerIteration P fetch pk batch s).2) →
      (workerIteration P fetch pk batch s).1.empty = s.empty + 1)

/-- Claim C4's no-write component as stated: once the target is reached, no
step writes to the corpus sink. -/
def ClaimC4 : Prop :=
  ∀ (P : Params) (lines : List String) (n : Nat) (c c' : Sys),
    Reach P (initSys lines n) c → P.target ≤ c.total →
      Step P c c' → c'.sink = c.sink

/-- The safety invariant behind the dedup guarantees, on the components of a
configuration: the sink plus all claimed-but-unresolved titles form a
duplicate-free list contained in the seen set, and the titles appended to
the seen-store this run are duplicate-free and contained in the seen set. -/
def InvParts (seen fileApp sink : List String) (ths : List Phase) : Prop :=
  (sink ++ actAll ths).Nodup ∧
  (∀ t ∈ sink ++ actAll ths, t ∈ seen) ∧
  fileApp.Nodup ∧ (∀ t ∈ fileApp, t ∈ seen)

/-- The safety invariant on configurations. -/
def Inv (c : Sys) : Prop :=
  InvParts c.seen c.fileApp c.sink c.threads

/-- A thread holding an in-flight fetch (past its per-title target check). -/
def isBody : Phase → Bool
  | .body _ _ _ => true
  | _ => false

/-- Number of threads with an in-flight fetch. -/
def countBody (c : Sys) : Nat := c.threads.countP isBody

/-- Termination measure of one thread's control state once the stop
condition holds. -/
def phaseWeight (P : Params) : Phase → Nat
  | .top => 1
  | .ready => 2 * P.batchSize + 3
  | .fetch pending _ => 2 * pending.length + 2
  | .body _ pending _ => 2 * pending.length + 3
  | .done => 0

/-- Global termination measure once the stop condition holds. -/
def mu (P : Params) (c : Sys) : Nat :=
  (c.threads.map (phaseWeight P)).sum + (if c.monitorOn then 1 else 0)

/-- The phase transitions a single step can make once the target has been
reached: a checking worker returns, nobody starts a new in-flight fetch, and
an in-flight fetch resolves (with at most one write). -/
def postOk : Phase → Phase → Prop := fun a b =>
  a = b ∨ (a = .top ∧ b = .done) ∨
  (a = .ready ∧ (b = .top ∨ ∃ ns, b = .fetch ns 0)) ∨
  (∃ p w, a = .fetch p w ∧ b = .top) ∨
  (∃ t ts w, a = .body t ts w ∧ (b = .fetch ts w ∨ b = .fetch ts (w + 1)))

/-- Concrete parameters for the C1 counterexample run. -/
def P1 : Params := ⟨5, 1, 20⟩

/-- Concrete parameters for the C4 counterexample run. -/
def P4 : Params := ⟨1, 9, 20⟩

/-- A preexisting seen-store file holding one invalid (help-namespace)
identifier; the load filters it out. -/
def linesC1 : List String := ["मदत:क"]

/-- A fetch oracle where every title raises `PageError`. -/
def fetchErr : String → FetchRes := fun _ => FetchRes.pageErr

/-- A fetch oracle returning a one-word article for every title. -/
def fetchShort : String → FetchRes := fun _ => FetchRes.content "छोटा"

/-- A sampling oracle failing every attempt with a non-transient error. -/
def permOracle : Nat → AttemptRes := fun _ => AttemptRes.permanent

/-- A sampling oracle failing the first attempt transiently and every later
attempt non-transiently, so the retry loop aborts on attempt 2. -/
def permAfterTrans : Nat → AttemptRes :=
  fun i => if i = 1 then AttemptRes.transient else AttemptRes.permanent

/-- A sampling oracle failing every attempt with a transient error. -/
def transOracle : Nat → AttemptRes := fun _ => AttemptRes.transient

/-- A sampling oracle succeeding immediately with batch `b`. -/
def okOracle (b : List String) : Nat → AttemptRes := fun _ => AttemptRes.ok b

/-- Raw article content with 51 words, passing the word-count gate. -/
def raw51 : String := String.intercalate " " (List.replicate 51 "क")

/-- Fresh shared state. -/
def ws0 : WState := ⟨[], [], [], 0, 0⟩

/-- A configuration past the C4 target (`P4.target = 1`): one article
written, one worker about to take its stop check, monitor running. -/
def c4w : Sys := ⟨["अ"], ["अ"], ["अ"], 1, 0, [Phase.top], true⟩

/-- Shared state with 5 consecutive empty batches recorded. -/
def wsC2 : WState := ⟨[], [], [], 0, 5⟩

/-! ## Lemmas about the cleaning function -/

theorem subRunsAux_of_all {p : Char → Bool} {l : List Char}
    (h : ∀ c ∈ l, p c = false) : ∀ b, subRunsAux p b l = l := by
  induction l with
  | nil => intro b; rfl
  | cons c cs ih =>
    intro b
    have hc : p c = false := h c (List.mem_cons_self c cs)
    simp only [subRunsAux, hc, Bool.false_eq_true, if_false]
    exact congrArg (c :: ·) (ih (fun d hd => h d (List.mem_cons_of_mem c hd)) false)

theorem mem_subRunsAux {p : Char → Bool} {l : List Char} {c : Char} :
    ∀ {b : Bool}, c ∈ subRunsAux p b l → c = ' ' ∨ (c ∈ l ∧ p c = false) := by
  induction l with
  | nil => intro b h; simp [subRunsAux] at h
  | cons d ds ih =>
    intro b h
    by_cases hd : p d
    · have h' : c = ' ' ∨ c ∈ subRunsAux p true ds := by
        cases b
        · simp only [subRunsAux, hd, if_true, Bool.false_eq_true, if_false] at h
          exact List.mem_cons.mp h
        · simp only [subRunsAux, hd, if_true] at h
          exact Or.inr h
      rcases h' with h1 | h1
      · exact Or.inl h1
      · rcases ih h1 with h2 | ⟨h2, h3⟩
        · exact Or.inl h2
        · exact Or.inr ⟨List.mem_cons_of_mem d h2, h3⟩
    · simp only [subRunsAux, hd, Bool.false_eq_true, if_false] at h
      rcases List.mem_cons.mp h with h1 | h1
      · subst h1; exact Or.inr ⟨List.mem_cons_self c ds, by simpa using hd⟩
      · rcases ih h1 with h2 | ⟨h2, h3⟩
        · exact Or.inl h2
        · exact Or.inr ⟨List.mem_cons_of_mem d h2, h3⟩

theorem head_subRunsAux_true {p : Char → Bool} {l : List Char} :
    ∀ x, (subRunsAux p true l).head? = some x → p x = false := by
  induction l with
  | nil => intro x hx; simp [subRunsAux] at hx
  | cons c cs ih =>
    intro x hx
    by_cases hc : p c
    · simp only [subRunsAux, hc, if_true] at hx
      exact ih x hx
    · simp only [subRunsAux, hc, Bool.false_eq_true, if_false, List.head?_cons,
        Option.some.injEq] at hx
      subst hx; simpa using hc

theorem noTwoSp_subRunsAux (l : List Char) :
    ∀ b, noTwoSp (subRunsAux isPySpace b l) = true := by
  induction l with
  | nil => intro b; rfl
  | cons c cs ih =>
    intro b
    by_cases hc : isPySpace c
    · cases b with
      | true => simp only [subRunsAux, hc, if_true]; exact ih true
      | false =>
        simp only [subRunsAux, hc, if_true, Bool.false_eq_true, if_false]
        rcases hx : subRunsAux isPySpace true cs with _ | ⟨d, ds⟩
        · rfl
        · have hd : isPySpace d = false := by
            apply head_subRunsAux_true (l := cs); rw [hx]; rfl
          have := ih true
          rw [hx] at this
          simp [noTwoSp, hd, this]
    · simp only [subRunsAux, hc, Bool.false_eq_true, if_false]
      rcases hx : subRunsAux isPySpace false cs with _ | ⟨d, ds⟩
      · rfl
      · have := ih false
        rw [hx] at this
        simp [noTwoSp, hc, this]

theorem subRunsAux_fixed {l : List Char}
    (hsp : ∀ c ∈ l, isPySpace c = true → c = ' ')
    (hnt : noTwoSp l = true) : subRunsAux isPySpace false l = l := by
  induction l with
  | nil => rfl
  | cons c cs ih =>
    have hcs : ∀ d ∈ cs, isPySpace d = true → d = ' ' :=
      fun d hd => hsp d (List.mem_cons_of_mem c hd)
    by_cases hc : isPySpace c
    · have hc' : c = ' ' := hsp c (List.mem_cons_self c cs) hc
      simp only [subRunsAux, hc, if_true, Bool.false_eq_true, if_false]
      rcases cs with _ | ⟨d, ds⟩
      · simp [subRunsAux, hc']
      · have hd : isPySpace d = false := by
          simp only [noTwoSp, Bool.and_eq_true, Bool.not_eq_true'] at hnt
          rcases hnt with ⟨h1, _⟩
          cases hdm : isPySpace d
          · rfl
          · rw [hc, hdm] at h1; simp at h1
        have hnt' : noTwoSp (d :: ds) = true := by
          simp only [noTwoSp, Bool.and_eq_true] at hnt
          exact hnt.2
        have : subRunsAux isPySpace true (d :: ds) = subRunsAux isPySpace false (d :: ds) := by
          simp [subRunsAux, hd]
        rw [this, ih hcs hnt', hc']
    · simp only [subRunsAux, hc, Bool.false_eq_true, if_false]
      have hnt' : noTwoSp cs = true := by
        rcases cs with _ | ⟨d, ds⟩
        · rfl
        · simp only [noTwoSp, Bool.and_eq_true] at hnt
          exact hnt.2
      rw [ih hcs hnt']

theorem head_dropWhile_false {p : Char → Bool} {l : List Char} :
    ∀ x, (l.dropWhile p).head? = some x → p x = false := by
  induction l with
  | nil => intro x hx; simp [List.dropWhile] at hx
  | cons c cs ih =>
    intro x hx
    by_cases hc : p c
    · rw [List.dropWhile_cons, if_pos hc] at hx
      exact ih x hx
    · rw [List.dropWhile_cons, if_neg hc, List.head?_cons, Option.some_inj] at hx
      subst hx; simpa using hc

theorem dropWhile_eq_self_of_head {p : Char → Bool} {l : List Char}
    (h : ∀ x, l.head? = some x → p x = false) : l.dropWhile p = l := by
  cases l with
  | nil => rfl
  | cons c cs =>
    have : p c = false := h c rfl
    rw [List.dropWhile_cons, if_neg (by simp [this])]

theorem last_dropWhile_false {p : Char → Bool} {l : List Char}
    (h : ∀ x, l.reverse.head? = some x → p x = false) :
    ∀ x, (l.dropWhile p).reverse.head? = some x → p x = false := by
  induction l with
  | nil => intro x hx; simp [List.dropWhile] at hx
  | cons c cs ih =>
    intro x hx
    by_cases hc : p c
    · rw [List.dropWhile_cons, if_pos hc] at hx
      rcases hrev : cs.reverse with _ | ⟨y, ys⟩
      · have : cs = [] := List.reverse_eq_nil_iff.mp hrev
        subst this; simp [List.dropWhile] at hx
      · refine ih (fun z hz => ?_) x hx
        apply h z
        rw [List.reverse_cons, List.head?_append, hrev]
        rw [hrev] at hz
        simp only [List.head?_cons, Option.some.injEq] at hz ⊢
        subst hz; rfl
    · rw [List.dropWhile_cons, if_neg hc] at hx
      exact h x (by rw [List.reverse_cons] at *; exact hx)

theorem noTwoSp_tail {c : Char} {l : List Char} (h : noTwoSp (c :: l) = true) :
    noTwoSp l = true := by
  cases l with
  | nil => rfl
  | cons d ds => simp only [noTwoSp, Bool.and_eq_true] at h; exact h.2

theorem noTwoSp_dropWhile {p : Char → Bool} {l : List Char}
    (h : noTwoSp l = true) : noTwoSp (l.dropWhile p) = true := by
  induction l with
  | nil => rfl
  | cons c cs ih =>
    by_cases hc : p c
    · rw [List.dropWhile_cons, if_pos hc]
      exact ih (noTwoSp_tail h)
    · rw [List.dropWhile_cons, if_neg hc]
      exact h

theorem noTwoSp_append_single {xs : List Char} {a : Char} :
    noTwoSp (xs ++ [a]) = true ↔
      noTwoSp xs = true ∧
        ∀ x, xs.reverse.head? = some x → (isPySpace x && isPySpace a) = false := by
  induction xs with
  | nil => simp [noTwoSp]
  | cons x xs' ih =>
    cases xs' with
    | nil =>
      constructor
      · intro h
        simp only [List.singleton_append, noTwoSp, Bool.and_eq_true] at h
        refine ⟨rfl, fun z hz => ?_⟩
        simp only [List.reverse_singleton, List.head?_cons, Option.some.injEq] at hz
        subst hz
        have h1 := h.1
        simp only [Bool.not_eq_true'] at h1
        exact h1
      · rintro ⟨-, h2⟩
        have := h2 x (by simp)
        simp [noTwoSp, this]
    | cons y ys =>
      have hlast : ((x :: y :: ys).reverse).head? = ((y :: ys).reverse).head? := by
        rw [List.reverse_cons, List.head?_append]
        rcases hrev : (y :: ys).reverse with _ | ⟨z, zs⟩
        · exact absurd (List.reverse_eq_nil_iff.mp hrev) (by simp)
        · rfl
      constructor
      · intro h
        simp only [List.cons_append, noTwoSp, Bool.and_eq_true] at h
        rcases h with ⟨h1, h2⟩
        have h2' := ih.mp (by simpa using h2)
        refine ⟨?_, ?_⟩
        · simp only [noTwoSp, Bool.and_eq_true]
          exact ⟨h1, h2'.1⟩
        · intro z hz
          exact h2'.2 z (by rw [hlast] at hz; exact hz)
      · rintro ⟨h1, h2⟩
        simp only [noTwoSp, Bool.and_eq_true] at h1
        simp only [List.cons_append, noTwoSp, Bool.and_eq_true]
        refine ⟨h1.1, ?_⟩
        have : noTwoSp ((y :: ys) ++ [a]) = true :=
          ih.mpr ⟨h1.2, fun z hz => h2 z (by rw [hlast]; exact hz)⟩
        simpa using this

theorem noTwoSp_reverse {l : List Char} (h : noTwoSp l = true) :
    noTwoSp l.reverse = true := by
  induction l with
  | nil => rfl
  | cons c cs ih =>
    rw [List.reverse_cons]
    refine noTwoSp_append_single.mpr ⟨ih (noTwoSp_tail h), fun z hz => ?_⟩
    rw [List.reverse_reverse] at hz
    cases cs with
    | nil => simp at hz
    | cons d ds =>
      simp only [List.head?_cons, Option.some.injEq] at hz
      subst hz
      simp only [noTwoSp, Bool.and_eq_true, Bool.not_eq_true'] at h
      rcases h with ⟨h1, -⟩
      cases hdc : isPySpace d
      · simp
      · cases hcc : isPySpace c
        · simp
        · rw [hcc, hdc] at h1; simp at h1

theorem stripList_subset {l : List Char} {c : Char} (h : c ∈ stripList l) :
    c ∈ l := by
  unfold stripList at h
  rw [List.mem_reverse] at h
  have h1 := (List.dropWhile_sublist (l := (l.dropWhile isPySpace).reverse)
    (p := isPySpace)).subset h
  rw [List.mem_reverse] at h1
  exact (List.dropWhile_sublist (l := l) (p := isPySpace)).subset h1

theorem noTwoSp_stripList {l : List Char} (h : noTwoSp l = true) :
    noTwoSp (stripList l) = true := by
  unfold stripList
  exact noTwoSp_reverse (noTwoSp_dropWhile (noTwoSp_reverse (noTwoSp_dropWhile h)))

theorem stripList_head_false {l : List Char} :
    ∀ x, (stripList l).head? = some x → isPySpace x = false := by
  intro x hx
  unfold stripList at hx
  have key : ∀ z, ((l.dropWhile isPySpace).reverse.dropWhile isPySpace).reverse.head? =
      some z → isPySpace z = false := by
    intro z hz
    refine last_dropWhile_false (l := (l.dropWhile isPySpace).reverse)
      (fun y hy => ?_) z hz
    rw [List.reverse_reverse] at hy
    exact head_dropWhile_false y hy
  exact key x hx

theorem stripList_last_false {l : List Char} :
    ∀ x, (stripList l).reverse.head? = some x → isPySpace x = false := by
  intro x hx
  unfold stripList at hx
  rw [List.reverse_reverse] at hx
  exact head_dropWhile_false x hx

theorem stripList_eq_self {l : List Char}
    (h1 : ∀ x, l.head? = some x → isPySpace x = false)
    (h2 : ∀ x, l.reverse.head? = some x → isPySpace x = false) :
    stripList l = l := by
  unfold stripList
  rw [dropWhile_eq_self_of_head h1, dropWhile_eq_self_of_head h2,
    List.reverse_reverse]

theorem space_allowed : allowedChar ' ' = true := by decide

/-- A string already in the image of the cleaner is a fixed point: only
allowed characters, every whitespace is a plain space, no two adjacent
spaces, and no leading or trailing space. -/
theorem cleanList_fixed {l : List Char}
    (h1 : ∀ c ∈ l, allowedChar c = true)
    (h2 : ∀ c ∈ l, isPySpace c = true → c = ' ')
    (h3 : noTwoSp l = true)
    (h4 : ∀ x, l.head? = some x → isPySpace x = false)
    (h5 : ∀ x, l.reverse.head? = some x → isPySpace x = false) :
    cleanList l = l := by
  have e1 : subRuns (fun c => !allowedChar c) l = l :=
    subRunsAux_of_all (fun c hc => by rw [h1 c hc]; rfl) false
  have e2 : subRuns isPySpace l = l := subRunsAux_fixed h2 h3
  unfold cleanList
  rw [e1, e2, stripList_eq_self h4 h5]

theorem cleanList_mem_allowed {l : List Char} {c : Char}
    (h : c ∈ cleanList l) : allowedChar c = true := by
  unfold cleanList subRuns at h
  have h1 := stripList_subset h
  rcases mem_subRunsAux h1 with h2 | ⟨h2, -⟩
  · rw [h2]; exact space_allowed
  · rcases mem_subRunsAux h2 with h3 | ⟨-, h3⟩
    · rw [h3]; exact space_allowed
    · simpa using h3

theorem cleanList_mem_space {l : List Char} {c : Char}
    (h : c ∈ cleanList l) (hsp : isPySpace c = true) : c = ' ' := by
  unfold cleanList subRuns at h
  have h1 := stripList_subset h
  rcases mem_subRunsAux h1 with h2 | ⟨-, h2⟩
  · exact h2
  · rw [hsp] at h2; cases h2

theorem cleanList_noTwoSp (l : List Char) : noTwoSp (cleanList l) = true := by
  unfold cleanList subRuns
  exact noTwoSp_stripList (noTwoSp_subRunsAux _ false)

theorem cleanList_head (l : List Char) :
    ∀ x, (cleanList l).head? = some x → isPySpace x = false := by
  unfold cleanList
  exact stripList_head_false

theorem cleanList_last (l : List Char) :
    ∀ x, (cleanList l).reverse.head? = some x → isPySpace x = false := by
  unfold cleanList
  exact stripList_last_false

/-- Idempotence of the cleaner on character lists. -/
theorem cleanList_idem (l : List Char) : cleanList (cleanList l) = cleanList l :=
  cleanList_fixed (fun _ hc => cleanList_mem_allowed hc)
    (fun _ hc => cleanList_mem_space hc) (cleanList_noTwoSp l)
    (cleanList_head l) (cleanList_last l)

theorem toList_clean_text (s : String) : (clean_text s).toList = cleanList s.toList :=
  rfl

/-- C8: the cleaning function is idempotent — for every input string `x`,
`clean_text (clean_text x) = clean_text x`. -/
theorem C8_cleaner_idempotent (x : String) :
    clean_text (clean_text x) = clean_text x := by
  show String.mk (cleanList (cleanList x.toList)) = String.mk (cleanList x.toList)
  exact congrArg String.mk (cleanList_idem x.toList)

/-- C9 fails as stated: the string `" क\tख"` consists solely of allowed
characters (space, tab and Devanagari letters are all in the allow-list) with
no two adjacent spaces, yet the cleaner changes it — the leading space is
stripped and the tab is normalised to a space. -/
theorem C9_counterexample :
    allowedSingleSpaced (String.toList " क\tख") = true ∧
      clean_text " क\tख" ≠ " क\tख" := by
  constructor
  · decide
  · decide

/-- C9 amended: `clean_text x = x` holds if `x` consists solely of allowed
characters, every whitespace character of `x` is the plain space, no two
spaces are adjacent, and `x` neither starts nor ends with a space. -/
theorem C9_amended_round_trip (x : String)
    (h1 : ∀ c ∈ x.toList, allowedChar c = true)
    (h2 : ∀ c ∈ x.toList, isPySpace c = true → c = ' ')
    (h3 : noTwoSp x.toList = true)
    (h4 : ∀ y, x.toList.head? = some y → isPySpace y = false)
    (h5 : ∀ y, x.toList.reverse.head? = some y → isPySpace y = false) :
    clean_text x = x := by
  show String.mk (cleanList x.toList) = x
  rw [cleanList_fixed h1 h2 h3 h4 h5]
  cases x
  rfl

theorem C9_amended_round_trip_witness : clean_text "मराठी वाक्य" = "मराठी वाक्य" :=
  C9_amended_round_trip "मराठी वाक्य" (by decide) (by decide) (by decide)
    (by decide) (by decide)

/-! ## Lemmas about claiming and the seen-store load -/

theorem mem_claimNew {seen batch : List String} {t : String} :
    t ∈ claimNew seen batch ↔ t ∈ batch ∧ t ∉ seen := by
  induction batch generalizing seen with
  | nil => simp [claimNew]
  | cons b bs ih =>
    by_cases hb : b ∈ seen
    · rw [claimNew, if_pos hb, ih]
      constructor
      · rintro ⟨h1, h2⟩
        exact ⟨List.mem_cons_of_mem b h1, h2⟩
      · rintro ⟨h1, h2⟩
        rcases List.mem_cons.mp h1 with h3 | h3
        · subst h3; exact absurd hb h2
        · exact ⟨h3, h2⟩
    · rw [claimNew, if_neg hb, List.mem_cons, ih]
      constructor
      · rintro (h1 | ⟨h1, h2⟩)
        · subst h1; exact ⟨List.mem_cons_self t bs, hb⟩
        · exact ⟨List.mem_cons_of_mem b h1,
            fun hs => h2 (List.mem_cons_of_mem b hs)⟩
      · rintro ⟨h1, h2⟩
        by_cases htb : t = b
        · exact Or.inl htb
        · right
          rcases List.mem_cons.mp h1 with h3 | h3
          · exact absurd h3 htb
          · exact ⟨h3, fun hc => (List.mem_cons.mp hc).elim htb h2⟩

theorem claimNew_not_mem {seen batch : List String} {t : String}
    (h : t ∈ claimNew seen batch) : t ∉ seen :=
  (mem_claimNew.mp h).2

theorem claimNew_nodup (seen batch : List String) :
    (claimNew seen batch).Nodup := by
  induction batch generalizing seen with
  | nil => exact List.nodup_nil
  | cons b bs ih =>
    by_cases hb : b ∈ seen
    · rw [claimNew, if_pos hb]; exact ih seen
    · rw [claimNew, if_neg hb]
      exact List.nodup_cons.mpr
        ⟨fun hmem => claimNew_not_mem hmem (List.mem_cons_self b seen), ih (b :: seen)⟩

theorem claimNew_length_le (seen batch : List String) :
    (claimNew seen batch).length ≤ batch.length := by
  induction batch generalizing seen with
  | nil => exact Nat.le_refl 0
  | cons b bs ih =>
    by_cases hb : b ∈ seen
    · rw [claimNew, if_pos hb]
      exact Nat.le_succ_of_le (ih seen)
    · rw [claimNew, if_neg hb]
      exact Nat.succ_le_succ (ih (b :: seen))

/-- C6: the load reads one stripped identifier per non-blank line,
deduplicates via the set container, removes every identifier containing an
invalid-page marker, and the run starts with `total_articles_written` equal
to the size of the filtered set (and the seen set equal to it). -/
theorem C6_load_spec (lines : List String) (n : Nat) :
    (loadSeen lines).Nodup ∧
    (∀ t, t ∈ loadSeen lines ↔
      ((∃ line ∈ lines, stripLine line = t) ∧ t ≠ "" ∧
        hasInvalidPattern t = false)) ∧
    (initSys lines n).seen = loadSeen lines ∧
    (initSys lines n).total = (loadSeen lines).length := by
  refine ⟨List.Nodup.filter _ (claimNew_nodup [] _), fun t => ?_, rfl, rfl⟩
  rw [loadSeen, List.mem_filter, mem_claimNew, fileIds, List.mem_filter,
    List.mem_map]
  simp only [List.not_mem_nil, not_false_iff, and_true, decide_eq_true_eq,
    Bool.not_eq_true']
  tauto

theorem C6_load_spec_witness :
    (loadSeen ["मदत:क", "", " शिवाजी "]).Nodup ∧
      (initSys ["मदत:क", "", " शिवाजी "] NUM_WORKER_THREADS).total =
        (loadSeen ["मदत:क", "", " शिवाजी "]).length :=
  ⟨(C6_load_spec ["मदत:क", "", " शिवाजी "] NUM_WORKER_THREADS).1,
   (C6_load_spec ["मदत:क", "", " शिवाजी "] NUM_WORKER_THREADS).2.2.2⟩

/-! ## Lemmas about the sequential worker model -/

theorem fetchLoop_fields (P : Params) (fetch : String → FetchRes) :
    ∀ (ts : List String) (s : WState) (w : Nat),
      (fetchLoop P fetch s w ts).1.empty = s.empty ∧
      (fetchLoop P fetch s w ts).1.seen = s.seen ∧
      (fetchLoop P fetch s w ts).1.fileApp = s.fileApp := by
  intro ts
  induction ts with
  | nil => intro s w; exact ⟨rfl, rfl, rfl⟩
  | cons t ts ih =>
    intro s w
    by_cases ht : P.target ≤ s.total
    · simp [fetchLoop, ht]
    · simp only [fetchLoop, if_neg ht]
      cases hf : fetch t with
      | content raw =>
        by_cases hw : wordCount (clean_text raw) ≤ 50
        · simpa only [if_pos hw] using ih s w
        · simpa only [if_neg hw] using
            ih { s with sink := s.sink ++ [t], total := s.total + 1 } (w + 1)
      | redirectErr => exact ih s w
      | disambigErr => exact ih s w
      | pageErr => exact ih s w
      | wikiErr => exact ih s w
      | otherErr => exact ih s w

/-- C2 amended: after one worker iteration the shared empty-batch counter
equals `old + 1` when no new identifier was claimed, `1` when new identifiers
were claimed but none produced an accepted write (the claim-time reset
followed by the end-of-batch increment), and `0` when at least one accepted
write occurred.  In particular the counter is reset exactly on iterations
that claim at least one new identifier, not only on those that also write. -/
theorem C2_amended_empty_counter (P : Params) (fetch : String → FetchRes)
    (pk : Bool) (batch : List String) (s : WState) :
    (workerIteration P fetch pk batch s).1.empty =
      if claimNew s.seen batch = [] then s.empty + 1
      else if (workerIteration P fetch pk batch s).2 = 0 then 1 else 0 := by
  unfold workerIteration
  rcases hnew : claimNew s.seen batch with _ | ⟨b, bs⟩
  · simp
  · simp only [List.isEmpty_cons, Bool.false_eq_true, if_false, hnew,
      reduceCtorEq]
    set s1 : WState :=
      { s with seen := s.seen ++ b :: bs, empty := 0,
               fileApp := if pk then s.fileApp ++ b :: bs else s.fileApp } with hs1
    have hemp : (fetchLoop P fetch s1 0 (b :: bs)).1.empty = 0 :=
      (fetchLoop_fields P fetch (b :: bs) s1 0).1
    by_cases hz : (fetchLoop P fetch s1 0 (b :: bs)).2 = 0
    · simp [hz, hemp]
    · simp [hz, hemp]

/-- C2 fails as stated: an iteration that claims a new identifier whose
fetch raises `PageError` (so nothing is written) still resets the counter at
claim time; starting from counter 5 it ends at 1, not 6. -/
theorem C2_counterexample : ¬ ClaimC2 := by
  intro h
  have h2 := (h defaultParams fetchErr true ["क"] wsC2).2
  have hpre : ¬(claimNew wsC2.seen ["क"] ≠ [] ∧
      0 < (workerIteration defaultParams fetchErr true ["क"] wsC2).2) := by
    decide
  have := h2 hpre
  exact absurd this (by decide)

/-- C5: a fetched article whose cleaned text has at most 50 words produces
no corpus-sink write and no counter increment — processing it leaves the
fetch-and-write loop's state exactly as if the title were absent. -/
theorem C5_word_count_gate (P : Params) (fetch : String → FetchRes)
    (s : WState) (w : Nat) (t : String) (ts : List String) (raw : String)
    (h1 : s.total < P.target) (h2 : fetch t = FetchRes.content raw)
    (h3 : wordCount (clean_text raw) ≤ 50) :
    fetchLoop P fetch s w (t :: ts) = fetchLoop P fetch s w ts := by
  rw [fetchLoop, if_neg (Nat.not_le.mpr h1), h2]
  simp only [if_pos h3]

theorem C5_word_count_gate_witness :
    fetchLoop defaultParams fetchShort ws0 0 ["क"] =
      fetchLoop defaultParams fetchShort ws0 0 [] :=
  C5_word_count_gate defaultParams fetchShort ws0 0 "क" [] "छोटा"
    (by decide) rfl (by decide)

/-- C7: a failed append to the seen-store is non-fatal — the seen-store file
is left unchanged, the newly-claimed identifiers stay in the in-memory seen
set (so no later batch can claim them again within the run), and the worker
loop carries on with the iteration instead of stopping. -/
theorem C7_persist_failure_nonfatal (P : Params) (o : Nat → AttemptRes)
    (fetch : String → FetchRes) (batch : List String) (s : WState)
    (hne : claimNew s.seen batch ≠ [])
    (h1 : s.total < P.target) (h2 : s.empty < P.threshold)
    (h3 : (sampleBatch o).sEnd = SampleEnd.success batch) :
    (workerIteration P fetch false batch s).1.fileApp = s.fileApp ∧
    (∀ t ∈ claimNew s.seen batch,
      t ∈ (workerIteration P fetch false batch s).1.seen) ∧
    (∀ t ∈ claimNew s.seen batch, ∀ b2,
      t ∉ claimNew (workerIteration P fetch false batch s).1.seen b2) ∧
    workerRound P o fetch false s =
      (RoundNext.goOn (workerIteration P fetch false batch s).1, false) := by
  have hiter :
      (workerIteration P fetch false batch s).1.fileApp = s.fileApp ∧
      (workerIteration P fetch false batch s).1.seen =
        s.seen ++ claimNew s.seen batch := by
    unfold workerIteration
    rcases hnew : claimNew s.seen batch with _ | ⟨b, bs⟩
    · exact absurd hnew hne
    · simp only [List.isEmpty_cons, Bool.false_eq_true, if_false, if_false]
      set s1 : WState :=
        { s with seen := s.seen ++ b :: bs, empty := 0, fileApp := s.fileApp }
        with hs1
      have hf := fetchLoop_fields P fetch (b :: bs) s1 0
      by_cases hz : (fetchLoop P fetch s1 0 (b :: bs)).2 = 0
      · simp [hz, hf.2.1, hf.2.2]
      · simp [hz, hf.2.1, hf.2.2]
  refine ⟨hiter.1, ?_, ?_, ?_⟩
  · intro t ht
    rw [hiter.2]
    exact List.mem_append_right s.seen ht
  · intro t ht b2 hclaim
    exact claimNew_not_mem hclaim (by rw [hiter.2]; exact List.mem_append_right s.seen ht)
  · rw [workerRound, if_neg (Nat.not_le.mpr h1), if_neg (Nat.not_le.mpr h2), h3]

theorem C7_persist_failure_nonfatal_witness :
    (workerIteration P1 fetchErr false ["क"] ws0).1.fileApp = ws0.fileApp ∧
    (∀ t ∈ claimNew ws0.seen ["क"],
      t ∈ (workerIteration P1 fetchErr false ["क"] ws0).1.seen) ∧
    (∀ t ∈ claimNew ws0.seen ["क"], ∀ b2,
      t ∉ claimNew (workerIteration P1 fetchErr false ["क"] ws0).1.seen b2) ∧
    workerRound P1 (okOracle ["क"]) fetchErr false ws0 =
      (RoundNext.goOn (workerIteration P1 fetchErr false ["क"] ws0).1, false) :=
  C7_persist_failure_nonfatal P1 (okOracle ["क"]) fetchErr ["क"] ws0
    (by decide) (by decide) (by decide) rfl

/-! ## Lemmas about the retry loop -/

theorem sampleGo_ok {o : Nat → AttemptRes} {a f : Nat} {b : List String}
    (h : o a = AttemptRes.ok b) :
    sampleGo o a (f + 1) = ⟨SampleEnd.success b, 1, []⟩ := by
  rw [sampleGo, h]

theorem sampleGo_perm {o : Nat → AttemptRes} {a f : Nat}
    (h : o a = AttemptRes.permanent) :
    sampleGo o a (f + 1) = ⟨SampleEnd.aborted, 1, []⟩ := by
  rw [sampleGo, h]

theorem sampleGo_trans {o : Nat → AttemptRes} {a f : Nat}
    (h : o a = AttemptRes.transient) :
    sampleGo o a (f + 1) =
      ⟨(sampleGo o (a + 1) f).sEnd, (sampleGo o (a + 1) f).attempts + 1,
        RETRY_DELAY * a :: (sampleGo o (a + 1) f).delays⟩ := by
  rw [sampleGo, h]

theorem sampleGo_attempts_le (o : Nat → AttemptRes) :
    ∀ (f a : Nat), (sampleGo o a f).attempts ≤ f := by
  intro f
  induction f with
  | zero => intro a; exact Nat.le_refl 0
  | succ f ih =>
    intro a
    cases ho : o a with
    | ok b => rw [sampleGo_ok ho]; exact Nat.succ_le_succ (Nat.zero_le f)
    | permanent => rw [sampleGo_perm ho]; exact Nat.succ_le_succ (Nat.zero_le f)
    | transient => rw [sampleGo_trans ho]; exact Nat.succ_le_succ (ih (a + 1))

theorem sampleGo_attempts_pos (o : Nat → AttemptRes) :
    ∀ (f a : Nat), 0 < f → 1 ≤ (sampleGo o a f).attempts := by
  intro f
  induction f with
  | zero => intro a h; exact absurd h (by omega)
  | succ f _ =>
    intro a _
    cases ho : o a with
    | ok b => rw [sampleGo_ok ho]
    | permanent => rw [sampleGo_perm ho]
    | transient => rw [sampleGo_trans ho]; exact Nat.succ_le_succ (Nat.zero_le _)

theorem sampleGo_exhausted_zero (o : Nat → AttemptRes) (a : Nat) :
    (sampleGo o a 0).sEnd = SampleEnd.exhausted := rfl

theorem sampleGo_delays_ne (o : Nat → AttemptRes) :
    ∀ (f a : Nat), (sampleGo o a f).sEnd ≠ SampleEnd.exhausted →
      (sampleGo o a f).delays =
        (List.range' a ((sampleGo o a f).attempts - 1)).map
          (fun i => RETRY_DELAY * i) := by
  intro f
  induction f with
  | zero => intro a h; exact absurd rfl h
  | succ f ih =>
    intro a h
    cases ho : o a with
    | ok b => rw [sampleGo_ok ho]; rfl
    | permanent => rw [sampleGo_perm ho]; rfl
    | transient =>
      rw [sampleGo_trans ho] at h ⊢
      have h' : (sampleGo o (a + 1) f).sEnd ≠ SampleEnd.exhausted := h
      have hf : 0 < f := by
        by_contra hz
        have : f = 0 := by omega
        subst this
        exact h' rfl
      have hrec := ih (a + 1) h'
      have hpos := sampleGo_attempts_pos o f (a + 1) hf
      rcases hA : (sampleGo o (a + 1) f).attempts with _ | k
      · omega
      · rw [hA] at hrec
        show RETRY_DELAY * a :: (sampleGo o (a + 1) f).delays = _
        rw [hrec]
        have he : k + 1 + 1 - 1 = k + 1 := rfl
        rw [he, List.range'_succ a k 1]
        simp

theorem sampleGo_exhausted (o : Nat → AttemptRes) :
    ∀ (f a : Nat), (sampleGo o a f).sEnd = SampleEnd.exhausted →
      (sampleGo o a f).attempts = f ∧
      (sampleGo o a f).delays =
        (List.range' a f).map (fun i => RETRY_DELAY * i) ∧
      (∀ i, a ≤ i → i < a + f → o i = AttemptRes.transient) := by
  intro f
  induction f with
  | zero =>
    intro a _
    exact ⟨rfl, rfl, fun i h1 h2 => absurd (Nat.lt_of_le_of_lt h1 h2)
      (by omega)⟩
  | succ f ih =>
    intro a h
    cases ho : o a with
    | ok b => rw [sampleGo_ok ho] at h; exact absurd h (by simp)
    | permanent => rw [sampleGo_perm ho] at h; exact absurd h (by simp)
    | transient =>
      rw [sampleGo_trans ho] at h ⊢
      have hrec := ih (a + 1) h
      refine ⟨?_, ?_, ?_⟩
      · show (sampleGo o (a + 1) f).attempts + 1 = f + 1
        rw [hrec.1]
      · show RETRY_DELAY * a :: (sampleGo o (a + 1) f).delays = _
        rw [hrec.2.1, List.range'_succ a f 1]
        simp
      · intro i h1 h2
        rcases Nat.eq_or_lt_of_le h1 with h3 | h3
        · rw [← h3]; exact ho
        · exact hrec.2.2 i h3 (by omega)

theorem sampleGo_before (o : Nat → AttemptRes) :
    ∀ (f a : Nat) (i : Nat), a ≤ i → i + 1 < a + (sampleGo o a f).attempts →
      o i = AttemptRes.transient := by
  intro f
  induction f with
  | zero =>
    intro a i h1 h2
    have : (sampleGo o a 0).attempts = 0 := rfl
    omega
  | succ f ih =>
    intro a i h1 h2
    cases ho : o a with
    | ok b => rw [sampleGo_ok ho] at h2; simp at h2; omega
    | permanent => rw [sampleGo_perm ho] at h2; simp at h2; omega
    | transient =>
      rcases Nat.eq_or_lt_of_le h1 with h3 | h3
      · rw [← h3]; exact ho
      · rw [sampleGo_trans ho] at h2
        refine ih (a + 1) i h3 ?_
        simp only at h2
        omega

theorem sampleGo_success (o : Nat → AttemptRes) :
    ∀ (f a : Nat) (b : List String),
      (sampleGo o a f).sEnd = SampleEnd.success b →
      o (a + (sampleGo o a f).attempts - 1) = AttemptRes.ok b := by
  intro f
  induction f with
  | zero => intro a b h; exact absurd h (by simp [sampleGo])
  | succ f ih =>
    intro a b h
    cases ho : o a with
    | ok c =>
      rw [sampleGo_ok ho] at h ⊢
      have hcb : c = b := by simpa using h
      subst hcb
      show o (a + 1 - 1) = AttemptRes.ok c
      simpa using ho
    | permanent => rw [sampleGo_perm ho] at h; exact absurd h (by simp)
    | transient =>
      rw [sampleGo_trans ho] at h ⊢
      have hrec := ih (a + 1) b h
      show o (a + ((sampleGo o (a + 1) f).attempts + 1) - 1) = AttemptRes.ok b
      have he : a + ((sampleGo o (a + 1) f).attempts + 1) - 1 =
          a + 1 + (sampleGo o (a + 1) f).attempts - 1 := by omega
      rw [he]
      exact hrec

theorem sampleGo_aborted (o : Nat → AttemptRes) :
    ∀ (f a : Nat), (sampleGo o a f).sEnd = SampleEnd.aborted →
      o (a + (sampleGo o a f).attempts - 1) = AttemptRes.permanent := by
  intro f
  induction f with
  | zero => intro a h; exact absurd h (by simp [sampleGo])
  | succ f ih =>
    intro a h
    cases ho : o a with
    | ok c => rw [sampleGo_ok ho] at h; exact absurd h (by simp)
    | permanent =>
      rw [sampleGo_perm ho]
      show o (a + 1 - 1) = AttemptRes.permanent
      simpa using ho
    | transient =>
      rw [sampleGo_trans ho] at h ⊢
      have hrec := ih (a + 1) h
      show o (a + ((sampleGo o (a + 1) f).attempts + 1) - 1) = AttemptRes.permanent
      have he : a + ((sampleGo o (a + 1) f).attempts + 1) - 1 =
          a + 1 + (sampleGo o (a + 1) f).attempts - 1 := by omega
      rw [he]
      exact hrec

/-- C3: one invocation of the batch-sampling step issues at most
`MAX_RETRIES` attempts; every attempt before the last was a transient
failure, after which a delay of `attempt * RETRY_DELAY` was slept (the
recorded delays are exactly `RETRY_DELAY * 1, …`); and the loop ends only by
succeeding (its last attempt returned a batch), by aborting immediately on a
non-transient error (its last attempt was the non-transient failure), or,
after `MAX_RETRIES` transient failures, by escalating to the cooldown-and-skip
path, which leaves the state unchanged and returns to the stop check. -/
theorem C3_retry_bound (o : Nat → AttemptRes) :
    (sampleBatch o).attempts ≤ MAX_RETRIES ∧
    (∀ i, 1 ≤ i → i + 1 < 1 + (sampleBatch o).attempts →
      o i = AttemptRes.transient) ∧
    ((sampleBatch o).sEnd ≠ SampleEnd.exhausted →
      (sampleBatch o).delays =
        (List.range' 1 ((sampleBatch o).attempts - 1)).map
          (fun i => RETRY_DELAY * i)) ∧
    (∀ b, (sampleBatch o).sEnd = SampleEnd.success b →
      o (sampleBatch o).attempts = AttemptRes.ok b) ∧
    ((sampleBatch o).sEnd = SampleEnd.aborted →
      o (sampleBatch o).attempts = AttemptRes.permanent) ∧
    ((sampleBatch o).sEnd = SampleEnd.exhausted →
      (sampleBatch o).attempts = MAX_RETRIES ∧
      (sampleBatch o).delays =
        (List.range' 1 MAX_RETRIES).map (fun i => RETRY_DELAY * i) ∧
      ∀ i, 1 ≤ i → i ≤ MAX_RETRIES → o i = AttemptRes.transient) ∧
    (∀ (P : Params) (fetch : String → FetchRes) (pk : Bool) (s : WState),
      s.total < P.target → s.empty < P.threshold →
      (sampleBatch o).sEnd = SampleEnd.exhausted →
      workerRound P o fetch pk s = (RoundNext.goOn s, true)) := by
  refine ⟨sampleGo_attempts_le o MAX_RETRIES 1,
    fun i h1 h2 => sampleGo_before o MAX_RETRIES 1 i h1 h2,
    sampleGo_delays_ne o MAX_RETRIES 1, ?_, ?_, ?_, ?_⟩
  · intro b h
    have h' : o (1 + (sampleBatch o).attempts - 1) = AttemptRes.ok b :=
      sampleGo_success o MAX_RETRIES 1 b h
    have he : 1 + (sampleBatch o).attempts - 1 = (sampleBatch o).attempts := by
      omega
    rwa [he] at h'
  · intro h
    have h' : o (1 + (sampleBatch o).attempts - 1) = AttemptRes.permanent :=
      sampleGo_aborted o MAX_RETRIES 1 h
    have he : 1 + (sampleBatch o).attempts - 1 = (sampleBatch o).attempts := by
      omega
    rwa [he] at h'
  · intro h
    have h' := sampleGo_exhausted o MAX_RETRIES 1 h
    exact ⟨h'.1, h'.2.1, fun i hi1 hi2 => h'.2.2 i hi1 (by omega)⟩
  · intro P fetch pk s h1 h2 h3
    rw [workerRound, if_neg (Nat.not_le.mpr h1), if_neg (Nat.not_le.mpr h2), h3]

theorem C3_retry_bound_witness :
    (sampleBatch transOracle).attempts ≤ MAX_RETRIES ∧
    (sampleBatch transOracle).attempts = MAX_RETRIES ∧
    (sampleBatch transOracle).delays = [10, 20, 30, 40] ∧
    workerRound defaultParams transOracle fetchErr true ws0 =
      (RoundNext.goOn ws0, true) := by
  have h := C3_retry_bound transOracle
  have hex : (sampleBatch transOracle).sEnd = SampleEnd.exhausted := rfl
  refine ⟨h.1, (h.2.2.2.2.2.1 hex).1, ?_,
    h.2.2.2.2.2.2 defaultParams fetchErr true ws0 (by decide) (by decide) hex⟩
  rw [(h.2.2.2.2.2.1 hex).2.1]
  decide

theorem sampleGo_aborted_of (o : Nat → AttemptRes) :
    ∀ (f a k : Nat), a ≤ k → k < a + f →
      (∀ i, a ≤ i → i < k → o i = AttemptRes.transient) →
      o k = AttemptRes.permanent →
      (sampleGo o a f).sEnd = SampleEnd.aborted ∧
        (sampleGo o a f).attempts = k - a + 1 := by
  intro f
  induction f with
  | zero => intro a k h1 h2 _ _; omega
  | succ f ih =>
    intro a k h1 h2 hbefore hk
    rcases Nat.eq_or_lt_of_le h1 with h3 | h3
    · rw [← h3] at hk
      rw [sampleGo_perm hk]
      refine ⟨rfl, ?_⟩
      show (1 : Nat) = k - a + 1
      omega
    · have ha : o a = AttemptRes.transient := hbefore a (Nat.le_refl a) h3
      rw [sampleGo_trans ha]
      have hrec := ih (a + 1) k h3 (by omega)
        (fun i hi1 hi2 => hbefore i (by omega) hi2) hk
      refine ⟨hrec.1, ?_⟩
      show (sampleGo o (a + 1) f).attempts + 1 = k - a + 1
      rw [hrec.2]
      omega

/-- C10: if batch sampling fails with a non-transient error on any attempt
(after any number of transient failures), the retry loop ends `aborted` at
that attempt; the worker then takes no cooldown sleep and proceeds with the
still-empty batch, so the iteration increments `consecutive_empty_batches`
under the lock and changes nothing else; hence, starting below the
threshold, `threshold − empty + 1` such rounds of repeated permanent source
errors alone end the worker in the no-new-articles stop. -/
theorem C10_permanent_error_stop :
    (∀ (o : Nat → AttemptRes) (k : Nat), 1 ≤ k → k ≤ MAX_RETRIES →
      (∀ i, 1 ≤ i → i < k → o i = AttemptRes.transient) →
      o k = AttemptRes.permanent →
      (sampleBatch o).sEnd = SampleEnd.aborted ∧
        (sampleBatch o).attempts = k) ∧
    (∀ (o : Nat → AttemptRes) (P : Params) (fetch : String → FetchRes)
      (pk : Bool) (s : WState),
      (sampleBatch o).sEnd = SampleEnd.aborted →
      s.total < P.target → s.empty < P.threshold →
      workerRound P o fetch pk s =
        (RoundNext.goOn { s with empty := s.empty + 1 }, false)) ∧
    (∀ (o : Nat → AttemptRes) (P : Params) (fetch : String → FetchRes)
      (pk : Bool) (k : Nat) (s : WState),
      (sampleBatch o).sEnd = SampleEnd.aborted →
      s.total < P.target → P.threshold = s.empty + k →
      runRounds P o fetch pk (k + 1) s =
        RunRes.stopped StopReason.noNewArticles) := by
  have hround : ∀ (o : Nat → AttemptRes) (P : Params)
      (fetch : String → FetchRes) (pk : Bool) (s : WState),
      (sampleBatch o).sEnd = SampleEnd.aborted →
      s.total < P.target → s.empty < P.threshold →
      workerRound P o fetch pk s =
        (RoundNext.goOn { s with empty := s.empty + 1 }, false) := by
    intro o P fetch pk s habort h1 h2
    rw [workerRound, if_neg (Nat.not_le.mpr h1), if_neg (Nat.not_le.mpr h2),
      habort]
    rfl
  refine ⟨?_, hround, ?_⟩
  · intro o k h1 h2 hbefore hk
    have h := sampleGo_aborted_of o MAX_RETRIES 1 k h1 (by omega) hbefore hk
    exact ⟨h.1, by rw [sampleBatch, h.2]; omega⟩
  · intro o P fetch pk k
    induction k with
    | zero =>
      intro s habort h1 h2
      rw [runRounds, workerRound, if_neg (Nat.not_le.mpr h1),
        if_pos (by omega)]
    | succ k ih =>
      intro s habort h1 h2
      rw [runRounds, hround o P fetch pk s habort h1 (by omega)]
      refine ih { s with empty := s.empty + 1 } habort h1 ?_
      show P.threshold = s.empty + 1 + k
      omega

theorem C10_permanent_error_stop_witness :
    ((sampleBatch permAfterTrans).sEnd = SampleEnd.aborted ∧
      (sampleBatch permAfterTrans).attempts = 2) ∧
    workerRound defaultParams permAfterTrans fetchErr true ws0 =
      (RoundNext.goOn { ws0 with empty := ws0.empty + 1 }, false) ∧
    runRounds defaultParams permAfterTrans fetchErr true 101 ws0 =
      RunRes.stopped StopReason.noNewArticles ∧
    runRounds defaultParams permOracle fetchErr true 101 ws0 =
      RunRes.stopped StopReason.noNewArticles :=
  ⟨C10_permanent_error_stop.1 permAfterTrans 2 (by decide) (by decide)
      (fun i hi1 hi2 => by
        have hi : i = 1 := by omega
        rw [hi]
        rfl)
      rfl,
   C10_permanent_error_stop.2.1 permAfterTrans defaultParams fetchErr true
      ws0 rfl (by decide) (by decide),
   C10_permanent_error_stop.2.2 permAfterTrans defaultParams fetchErr true
      100 ws0 rfl (by decide) (by decide),
   C10_permanent_error_stop.2.2 permOracle defaultParams fetchErr true
      100 ws0 rfl (by decide) (by decide)⟩

/-! ## Lemmas about the interleaving semantics -/

theorem actAll_mid (l r : List Phase) (ph : Phase) :
    actAll (l ++ ph :: r) = actAll l ++ (activeOf ph ++ actAll r) := by
  simp [actAll, List.map_append, List.flatten_append]

theorem nodup_insert_mid {S A B N : List String}
    (h : (S ++ (A ++ B)).Nodup) (hN : N.Nodup)
    (hd : ∀ t ∈ N, t ∉ S ++ (A ++ B)) : (S ++ (A ++ (N ++ B))).Nodup := by
  have p1 : (N ++ B).Perm (B ++ N) := List.perm_append_comm
  have p2 := List.Perm.append_left S (List.Perm.append_left A p1)
  have he : S ++ (A ++ (B ++ N)) = (S ++ (A ++ B)) ++ N := by
    simp [List.append_assoc]
  rw [he] at p2
  refine p2.nodup_iff.mpr (List.nodup_append.mpr ⟨h, hN, ?_⟩)
  intro a ha hb
  exact hd a hb ha

theorem nodup_drop_mid {S A B X Y : List String}
    (hXY : Y.Sublist X) (h : (S ++ (A ++ (X ++ B))).Nodup) :
    (S ++ (A ++ (Y ++ B))).Nodup := by
  refine List.Nodup.sublist ?_ h
  exact ((hXY.append (List.Sublist.refl B)).append_left A).append_left S

theorem nodup_write_move {S A B ts : List String} {t : String}
    (h : (S ++ (A ++ ((t :: ts) ++ B))).Nodup) :
    ((S ++ [t]) ++ (A ++ (ts ++ B))).Nodup := by
  have h1 : (A ++ (t :: (ts ++ B))).Perm (t :: (A ++ (ts ++ B))) :=
    List.perm_middle
  have h2 := List.Perm.append_left S h1
  have he : S ++ (t :: (A ++ (ts ++ B))) = (S ++ [t]) ++ (A ++ (ts ++ B)) := by
    simp
  rw [he] at h2
  exact h2.nodup_iff.mp h

/-- The safety invariant is preserved by every step. -/
theorem step_inv {P : Params} {c c' : Sys} (h : Step P c c') (hI : Inv c) :
    Inv c' := by
  cases h with
  | checkStop seen fileApp sink total empty l r mon hc =>
    obtain ⟨h1, h2, h3, h4⟩ := hI
    refine ⟨?_, ?_, h3, h4⟩
    · simpa only [actAll_mid, activeOf] using h1
    · simpa only [actAll_mid, activeOf] using h2
  | checkGo seen fileApp sink total empty l r mon hc =>
    obtain ⟨h1, h2, h3, h4⟩ := hI
    refine ⟨?_, ?_, h3, h4⟩
    · simpa only [actAll_mid, activeOf] using h1
    · simpa only [actAll_mid, activeOf] using h2
  | sampleFail seen fileApp sink total empty l r mon =>
    obtain ⟨h1, h2, h3, h4⟩ := hI
    refine ⟨?_, ?_, h3, h4⟩
    · simpa only [actAll_mid, activeOf] using h1
    · simpa only [actAll_mid, activeOf] using h2
  | claimEmpty seen fileApp sink total empty l r mon batch hb hcl =>
    obtain ⟨h1, h2, h3, h4⟩ := hI
    refine ⟨?_, ?_, h3, h4⟩
    · simpa only [actAll_mid, activeOf] using h1
    · simpa only [actAll_mid, activeOf] using h2
  | claimGo seen fileApp sink total empty l r mon batch pk new hb hnew hne =>
    obtain ⟨h1, h2, h3, h4⟩ := hI
    have hn : new.Nodup := hnew ▸ claimNew_nodup seen batch
    have hnm : ∀ t ∈ new, t ∉ seen := by
      intro t ht
      exact claimNew_not_mem (hnew ▸ ht)
    simp only [Inv, InvParts, actAll_mid, activeOf, List.nil_append,
      List.mem_append] at h1 h2 ⊢
    refine ⟨?_, ?_, ?_, ?_⟩
    · refine nodup_insert_mid h1 hn ?_
      intro t ht hmem
      simp only [List.mem_append] at hmem
      exact hnm t ht (h2 t hmem)
    · intro t ht
      rcases ht with ht | ht | ht | ht
      · exact Or.inl (h2 t (Or.inl ht))
      · exact Or.inl (h2 t (Or.inr (Or.inl ht)))
      · exact Or.inr ht
      · exact Or.inl (h2 t (Or.inr (Or.inr ht)))
    · cases pk with
      | false => simpa using h3
      | true =>
        rw [if_pos rfl]
        refine List.nodup_append.mpr ⟨h3, hn, ?_⟩
        intro a ha hb2
        exact hnm a hb2 (h4 a ha)
    · intro t ht
      cases pk with
      | false =>
        rcases ht with ht | ht
        · exact Or.inl (h4 t ht)
        · exact absurd ht (List.not_mem_nil t)
      | true =>
        rcases ht with ht | ht
        · exact Or.inl (h4 t ht)
        · exact Or.inr ht
  | titleCheckStop seen fileApp sink total empty l r mon t ts w hc =>
    obtain ⟨h1, h2, h3, h4⟩ := hI
    simp only [Inv, InvParts, actAll_mid, activeOf, List.nil_append] at h1 h2 ⊢
    refine ⟨?_, ?_, h3, h4⟩
    · have := nodup_drop_mid (List.nil_sublist (t :: ts)) h1
      simpa using this
    · intro x hx
      refine h2 x ?_
      simp only [List.mem_append] at hx ⊢
      tauto
  | titleCheckGo seen fileApp sink total empty l r mon t ts w hc =>
    obtain ⟨h1, h2, h3, h4⟩ := hI
    refine ⟨?_, ?_, h3, h4⟩
    · simpa only [actAll_mid, activeOf] using h1
    · simpa only [actAll_mid, activeOf] using h2
  | bodyWrite seen fileApp sink total empty l r mon t ts w raw hw =>
    obtain ⟨h1, h2, h3, h4⟩ := hI
    simp only [Inv, InvParts, actAll_mid, activeOf] at h1 h2 ⊢
    refine ⟨?_, ?_, h3, h4⟩
    · exact nodup_write_move h1
    · intro x hx
      simp only [List.mem_append, List.mem_singleton] at hx
      refine h2 x ?_
      simp only [List.mem_append, List.mem_cons]
      tauto
  | bodyShort seen fileApp sink total empty l r mon t ts w raw hw =>
    obtain ⟨h1, h2, h3, h4⟩ := hI
    simp only [Inv, InvParts, actAll_mid, activeOf] at h1 h2 ⊢
    refine ⟨?_, ?_, h3, h4⟩
    · exact nodup_drop_mid (List.sublist_cons_self t ts) h1
    · intro x hx
      refine h2 x ?_
      simp only [List.mem_append, List.mem_cons] at hx ⊢
      tauto
  | bodyErr seen fileApp sink total empty l r mon t ts w =>
    obtain ⟨h1, h2, h3, h4⟩ := hI
    simp only [Inv, InvParts, actAll_mid, activeOf] at h1 h2 ⊢
    refine ⟨?_, ?_, h3, h4⟩
    · exact nodup_drop_mid (List.sublist_cons_self t ts) h1
    · intro x hx
      refine h2 x ?_
      simp only [List.mem_append, List.mem_cons] at hx ⊢
      tauto
  | fetchNil seen fileApp sink total empty l r mon w =>
    obtain ⟨h1, h2, h3, h4⟩ := hI
    refine ⟨?_, ?_, h3, h4⟩
    · simpa only [actAll_mid, activeOf] using h1
    · simpa only [actAll_mid, activeOf] using h2
  | monStop seen fileApp sink total empty ths hc => exact hI
  | monTick seen fileApp sink total empty ths hc => exact hI

theorem actAll_cons (ph : Phase) (r : List Phase) :
    actAll (ph :: r) = activeOf ph ++ actAll r := by
  simp [actAll]

theorem actAll_replicate_top (n : Nat) :
    actAll (List.replicate n Phase.top) = [] := by
  induction n with
  | zero => rfl
  | succ n ih => rw [List.replicate_succ, actAll_cons, ih]; rfl

/-- The safety invariant holds in every reachable configuration. -/
theorem reach_inv {P : Params} {lines : List String} {n : Nat} {c : Sys}
    (h : Reach P (initSys lines n) c) : Inv c := by
  induction h with
  | refl =>
    refine ⟨by simp [initSys, actAll_replicate_top],
      by simp [initSys, actAll_replicate_top], by simp [initSys],
      by simp [initSys]⟩
  | tail _ hstep ih => exact step_inv hstep ih

/-- C1 amended: in every reachable configuration of any run, no identifier
has been written to the corpus sink more than once, and no identifier has
been appended to the seen-store file more than once during the run.  (The
file as a whole may still repeat an identifier that was already present
before the run — e.g. one filtered out as invalid at load and re-sampled —
which is what refutes the claim as stated.) -/
theorem C1_amended_dedup (P : Params) (lines : List String) (n : Nat)
    (c : Sys) (h : Reach P (initSys lines n) c) :
    c.sink.Nodup ∧ c.fileApp.Nodup := by
  obtain ⟨h1, -, h3, -⟩ := reach_inv h
  exact ⟨(List.nodup_append.mp h1).1, h3⟩

theorem C1_amended_dedup_witness :
    (initSys linesC1 1).sink.Nodup ∧ (initSys linesC1 1).fileApp.Nodup :=
  C1_amended_dedup P1 linesC1 1 (initSys linesC1 1) Relation.ReflTransGen.refl

theorem forall₂_postOk_refl (xs : List Phase) : List.Forall₂ postOk xs xs :=
  List.forall₂_same.mpr (fun _ _ => Or.inl rfl)

theorem stopCond_of_target {P : Params} {total empty : Nat}
    (h : P.target ≤ total) : stopCond P total empty = true := by
  simp [stopCond, h]

/-- Once the target is reached, any step only moves thread phases along the
wind-down order `postOk`: checking workers return, nobody enters a new
in-flight fetch, in-flight fetches resolve. -/
theorem step_postOk {P : Params} {c c' : Sys} (h : Step P c c')
    (ht : P.target ≤ c.total) : List.Forall₂ postOk c.threads c'.threads := by
  cases h with
  | checkStop seen fileApp sink total empty l r mon hc =>
    exact List.rel_append (forall₂_postOk_refl l)
      (List.forall₂_cons.mpr ⟨Or.inr (Or.inl ⟨rfl, rfl⟩), forall₂_postOk_refl r⟩)
  | checkGo seen fileApp sink total empty l r mon hc =>
    rw [stopCond_of_target ht] at hc
    cases hc
  | sampleFail seen fileApp sink total empty l r mon =>
    exact List.rel_append (forall₂_postOk_refl l)
      (List.forall₂_cons.mpr
        ⟨Or.inr (Or.inr (Or.inl ⟨rfl, Or.inl rfl⟩)), forall₂_postOk_refl r⟩)
  | claimEmpty seen fileApp sink total empty l r mon batch hb hcl =>
    exact List.rel_append (forall₂_postOk_refl l)
      (List.forall₂_cons.mpr
        ⟨Or.inr (Or.inr (Or.inl ⟨rfl, Or.inl rfl⟩)), forall₂_postOk_refl r⟩)
  | claimGo seen fileApp sink total empty l r mon batch pk new hb hnew hne =>
    exact List.rel_append (forall₂_postOk_refl l)
      (List.forall₂_cons.mpr
        ⟨Or.inr (Or.inr (Or.inl ⟨rfl, Or.inr ⟨new, rfl⟩⟩)),
          forall₂_postOk_refl r⟩)
  | titleCheckStop seen fileApp sink total empty l r mon t ts w hc =>
    exact List.rel_append (forall₂_postOk_refl l)
      (List.forall₂_cons.mpr
        ⟨Or.inr (Or.inr (Or.inr (Or.inl ⟨t :: ts, w, rfl, rfl⟩))),
          forall₂_postOk_refl r⟩)
  | titleCheckGo seen fileApp sink total empty l r mon t ts w hc =>
    exact absurd (Nat.lt_of_le_of_lt ht hc) (Nat.lt_irrefl _)
  | bodyWrite seen fileApp sink total empty l r mon t ts w raw hw =>
    exact List.rel_append (forall₂_postOk_refl l)
      (List.forall₂_cons.mpr
        ⟨Or.inr (Or.inr (Or.inr (Or.inr ⟨t, ts, w, rfl, Or.inr rfl⟩))),
          forall₂_postOk_refl r⟩)
  | bodyShort seen fileApp sink total empty l r mon t ts w raw hw =>
    exact List.rel_append (forall₂_postOk_refl l)
      (List.forall₂_cons.mpr
        ⟨Or.inr (Or.inr (Or.inr (Or.inr ⟨t, ts, w, rfl, Or.inl rfl⟩))),
          forall₂_postOk_refl r⟩)
  | bodyErr seen fileApp sink total empty l r mon t ts w =>
    exact List.rel_append (forall₂_postOk_refl l)
      (List.forall₂_cons.mpr
        ⟨Or.inr (Or.inr (Or.inr (Or.inr ⟨t, ts, w, rfl, Or.inl rfl⟩))),
          forall₂_postOk_refl r⟩)
  | fetchNil seen fileApp sink total empty l r mon w =>
    exact List.rel_append (forall₂_postOk_refl l)
      (List.forall₂_cons.mpr
        ⟨Or.inr (Or.inr (Or.inr (Or.inl ⟨[], w, rfl, rfl⟩))),
          forall₂_postOk_refl r⟩)
  | monStop seen fileApp sink total empty ths hc => exact forall₂_postOk_refl ths
  | monTick seen fileApp sink total empty ths hc =>
    rw [stopCond_of_target ht] at hc
    cases hc

/-- Once the target is reached, `sink.length + countBody` never increases
and the total stays at or above the target. -/
theorem step_potential {P : Params} {c c' : Sys} (h : Step P c c')
    (ht : P.target ≤ c.total) :
    c'.sink.length + countBody c' ≤ c.sink.length + countBody c ∧
      P.target ≤ c'.total := by
  cases h with
  | checkGo seen fileApp sink total empty l r mon hc =>
    rw [stopCond_of_target ht] at hc
    cases hc
  | titleCheckGo seen fileApp sink total empty l r mon t ts w hc =>
    exact absurd (Nat.lt_of_le_of_lt ht hc) (Nat.lt_irrefl _)
  | monTick seen fileApp sink total empty ths hc =>
    rw [stopCond_of_target ht] at hc
    cases hc
  | bodyWrite seen fileApp sink total empty l r mon t ts w raw hw =>
    refine ⟨?_, Nat.le_succ_of_le ht⟩
    simp [countBody, List.countP_append, List.countP_cons, isBody]
    omega
  | checkStop seen fileApp sink total empty l r mon hc =>
    refine ⟨?_, ht⟩
    simp [countBody, List.countP_append, List.countP_cons, isBody]
  | sampleFail seen fileApp sink total empty l r mon =>
    refine ⟨?_, ht⟩
    simp [countBody, List.countP_append, List.countP_cons, isBody]
  | claimEmpty seen fileApp sink total empty l r mon batch hb hcl =>
    refine ⟨?_, ht⟩
    simp [countBody, List.countP_append, List.countP_cons, isBody]
  | claimGo seen fileApp sink total empty l r mon batch pk new hb hnew hne =>
    refine ⟨?_, ht⟩
    simp [countBody, List.countP_append, List.countP_cons, isBody]
  | titleCheckStop seen fileApp sink total empty l r mon t ts w hc =>
    refine ⟨?_, ht⟩
    simp [countBody, List.countP_append, List.countP_cons, isBody]
  | bodyShort seen fileApp sink total empty l r mon t ts w raw hw =>
    refine ⟨?_, ht⟩
    simp [countBody, List.countP_append, List.countP_cons, isBody]
  | bodyErr seen fileApp sink total empty l r mon t ts w =>
    refine ⟨?_, ht⟩
    simp [countBody, List.countP_append, List.countP_cons, isBody]
  | fetchNil seen fileApp sink total empty l r mon w =>
    refine ⟨?_, ht⟩
    simp [countBody, List.countP_append, List.countP_cons, isBody]
  | monStop seen fileApp sink total empty ths hc => exact ⟨Nat.le_refl _, ht⟩

theorem star_sink_bound {P : Params} {c c' : Sys}
    (h : Relation.ReflTransGen (Step P) c c') (ht : P.target ≤ c.total) :
    c'.sink.length + countBody c' ≤ c.sink.length + countBody c ∧
      P.target ≤ c'.total := by
  induction h with
  | refl => exact ⟨Nat.le_refl _, ht⟩
  | tail _ hbc ih =>
    have h2 := step_potential hbc ih.2
    exact ⟨Nat.le_trans h2.1 ih.1, h2.2⟩

/-- Once the target is reached, every step strictly decreases the
termination measure, so all threads and the monitor wind down. -/
theorem step_mu {P : Params} {c c' : Sys} (h : Step P c c')
    (ht : P.target ≤ c.total) : mu P c' < mu P c := by
  cases h with
  | checkGo seen fileApp sink total empty l r mon hc =>
    rw [stopCond_of_target ht] at hc
    cases hc
  | titleCheckGo seen fileApp sink total empty l r mon t ts w hc =>
    exact absurd (Nat.lt_of_le_of_lt ht hc) (Nat.lt_irrefl _)
  | monTick seen fileApp sink total empty ths hc =>
    rw [stopCond_of_target ht] at hc
    cases hc
  | checkStop seen fileApp sink total empty l r mon hc =>
    simp [mu, List.map_append, List.sum_append, phaseWeight]
  | sampleFail seen fileApp sink total empty l r mon =>
    simp [mu, List.map_append, List.sum_append, phaseWeight]
  | claimEmpty seen fileApp sink total empty l r mon batch hb hcl =>
    simp [mu, List.map_append, List.sum_append, phaseWeight]
  | claimGo seen fileApp sink total empty l r mon batch pk new hb hnew hne =>
    have hlen : new.length ≤ batch.length := by
      rw [← hnew]
      exact claimNew_length_le seen batch
    simp only [mu, List.map_append, List.sum_append, List.map_cons,
      List.sum_cons, phaseWeight]
    omega
  | titleCheckStop seen fileApp sink total empty l r mon t ts w hc =>
    simp [mu, List.map_append, List.sum_append, phaseWeight]
  | bodyWrite seen fileApp sink total empty l r mon t ts w raw hw =>
    simp [mu, List.map_append, List.sum_append, phaseWeight]
  | bodyShort seen fileApp sink total empty l r mon t ts w raw hw =>
    simp [mu, List.map_append, List.sum_append, phaseWeight]
  | bodyErr seen fileApp sink total empty l r mon t ts w =>
    simp [mu, List.map_append, List.sum_append, phaseWeight]
  | fetchNil seen fileApp sink total empty l r mon w =>
    simp [mu, List.map_append, List.sum_append, phaseWeight]
  | monStop seen fileApp sink total empty ths hc =>
    simp [mu]

/-- C4 amended: once the target has been reached, (a) the total number of
sink writes in the rest of the run is bounded by the number of in-flight
fetches (one per worker already past its per-title check) — workers not past
the check never write again; (b) every step moves thread phases only along
the wind-down order (a checking worker returns, nobody enters a new
in-flight fetch); (c) the monitor's stop step is enabled whenever it still
runs (and its keep-going step is not, by (d)); (d) every step strictly
decreases the termination measure `mu`, so workers and monitor terminate. -/
theorem C4_amended_stop (P : Params) (c : Sys) (ht : P.target ≤ c.total) :
    (∀ c', Relation.ReflTransGen (Step P) c c' →
      c'.sink.length ≤ c.sink.length + countBody c) ∧
    (∀ c', Step P c c' → List.Forall₂ postOk c.threads c'.threads) ∧
    (c.monitorOn = true → Step P c { c with monitorOn := false }) ∧
    (∀ c', Step P c c' → mu P c' < mu P c) := by
  refine ⟨fun c' h => ?_, fun c' h => step_postOk h ht, ?_,
    fun c' h => step_mu h ht⟩
  · have h2 := star_sink_bound h ht
    omega
  · intro hm
    have hc : stopCond P c.total c.empty = true := stopCond_of_target ht
    obtain ⟨seen, fileApp, sink, total, empty, ths, mon⟩ := c
    cases hm
    exact Step.monStop seen fileApp sink total empty ths hc

theorem C4_amended_stop_witness :
    Step P4 c4w { c4w with monitorOn := false } ∧
      c4w.sink.length ≤ c4w.sink.length + countBody c4w :=
  ⟨(C4_amended_stop P4 c4w (by decide)).2.2.1 rfl,
   (C4_amended_stop P4 c4w (by decide)).1 c4w Relation.ReflTransGen.refl⟩

/-- C1 fails as stated: a run whose preexisting seen-store file holds the
invalid identifier `"मदत:क"` filters it out of the in-memory set at load;
when the same identifier is then sampled it is claimed as new and appended
again, so after the run the file contains it twice. -/
theorem C1_counterexample : ¬ ClaimC1 := by
  intro h
  have st1 : Step P1 ⟨[], [], [], 0, 0, [Phase.top], true⟩
      ⟨[], [], [], 0, 0, [Phase.ready], true⟩ :=
    Step.checkGo [] [] [] 0 0 [] [] true (by decide)
  have st2 : Step P1 ⟨[], [], [], 0, 0, [Phase.ready], true⟩
      ⟨["मदत:क"], ["मदत:क"], [], 0, 0, [Phase.fetch ["मदत:क"] 0], true⟩ :=
    Step.claimGo [] [] [] 0 0 [] [] true ["मदत:क"] true ["मदत:क"]
      (by decide) (by decide) (by decide)
  have st3 : Step P1 ⟨["मदत:क"], ["मदत:क"], [], 0, 0,
      [Phase.fetch ["मदत:क"] 0], true⟩
      ⟨["मदत:क"], ["मदत:क"], [], 0, 0, [Phase.body "मदत:क" [] 0], true⟩ :=
    Step.titleCheckGo ["मदत:क"] ["मदत:क"] [] 0 0 [] [] true "मदत:क" [] 0
      (by decide)
  have st4 : Step P1 ⟨["मदत:क"], ["मदत:क"], [], 0, 0,
      [Phase.body "मदत:क" [] 0], true⟩
      ⟨["मदत:क"], ["मदत:क"], [], 0, 0, [Phase.fetch [] 0], true⟩ :=
    Step.bodyErr ["मदत:क"] ["मदत:क"] [] 0 0 [] [] true "मदत:क" [] 0
  have st5 : Step P1 ⟨["मदत:क"], ["मदत:क"], [], 0, 0, [Phase.fetch [] 0], true⟩
      ⟨["मदत:क"], ["मदत:क"], [], 0, 1, [Phase.top], true⟩ :=
    Step.fetchNil ["मदत:क"] ["मदत:क"] [] 0 0 [] [] true 0
  have st6 : Step P1 ⟨["मदत:क"], ["मदत:क"], [], 0, 1, [Phase.top], true⟩
      ⟨["मदत:क"], ["मदत:क"], [], 0, 1, [Phase.done], true⟩ :=
    Step.checkStop ["मदत:क"] ["मदत:क"] [] 0 1 [] [] true (by decide)
  have st7 : Step P1 ⟨["मदत:क"], ["मदत:क"], [], 0, 1, [Phase.done], true⟩
      ⟨["मदत:क"], ["मदत:क"], [], 0, 1, [Phase.done], false⟩ :=
    Step.monStop ["मदत:क"] ["मदत:क"] [] 0 1 [Phase.done] (by decide)
  have hreach : Reach P1 (initSys linesC1 1)
      ⟨["मदत:क"], ["मदत:क"], [], 0, 1, [Phase.done], false⟩ :=
    Relation.ReflTransGen.head st1 (Relation.ReflTransGen.head st2
      (Relation.ReflTransGen.head st3 (Relation.ReflTransGen.head st4
        (Relation.ReflTransGen.head st5 (Relation.ReflTransGen.head st6
          (Relation.ReflTransGen.head st7 Relation.ReflTransGen.refl))))))
  have hfin := (h P1 linesC1 1 _ hreach).2 ⟨rfl, rfl⟩
  exact absurd hfin (by decide)

set_option maxRecDepth 8000 in
theorem raw51_long : 50 < wordCount (clean_text raw51) := by decide

/-- C4 fails as stated: with target 1 and two workers, worker 0 passes its
per-title target check while the total is still 0, worker 1 then writes the
first accepted article reaching the target, and worker 0's in-flight fetch
still completes and writes to the sink after the target was reached. -/
theorem C4_counterexample : ¬ ClaimC4 := by
  intro h
  have st1 : Step P4 ⟨[], [], [], 0, 0, [Phase.top, Phase.top], true⟩
      ⟨[], [], [], 0, 0, [Phase.ready, Phase.top], true⟩ :=
    Step.checkGo [] [] [] 0 0 [] [Phase.top] true (by decide)
  have st2 : Step P4 ⟨[], [], [], 0, 0, [Phase.ready, Phase.top], true⟩
      ⟨["अ"], ["अ"], [], 0, 0, [Phase.fetch ["अ"] 0, Phase.top], true⟩ :=
    Step.claimGo [] [] [] 0 0 [] [Phase.top] true ["अ"] true ["अ"]
      (by decide) (by decide) (by decide)
  have st3 : Step P4 ⟨["अ"], ["अ"], [], 0, 0,
      [Phase.fetch ["अ"] 0, Phase.top], true⟩
      ⟨["अ"], ["अ"], [], 0, 0, [Phase.body "अ" [] 0, Phase.top], true⟩ :=
    Step.titleCheckGo ["अ"] ["अ"] [] 0 0 [] [Phase.top] true "अ" [] 0
      (by decide)
  have st4 : Step P4 ⟨["अ"], ["अ"], [], 0, 0,
      [Phase.body "अ" [] 0, Phase.top], true⟩
      ⟨["अ"], ["अ"], [], 0, 0, [Phase.body "अ" [] 0, Phase.ready], true⟩ :=
    Step.checkGo ["अ"] ["अ"] [] 0 0 [Phase.body "अ" [] 0] [] true (by decide)
  have st5 : Step P4 ⟨["अ"], ["अ"], [], 0, 0,
      [Phase.body "अ" [] 0, Phase.ready], true⟩
      ⟨["अ", "आ"], ["अ", "आ"], [], 0, 0,
        [Phase.body "अ" [] 0, Phase.fetch ["आ"] 0], true⟩ :=
    Step.claimGo ["अ"] ["अ"] [] 0 0 [Phase.body "अ" [] 0] [] true ["आ"] true
      ["आ"] (by decide) (by decide) (by decide)
  have st6 : Step P4 ⟨["अ", "आ"], ["अ", "आ"], [], 0, 0,
      [Phase.body "अ" [] 0, Phase.fetch ["आ"] 0], true⟩
      ⟨["अ", "आ"], ["अ", "आ"], [], 0, 0,
        [Phase.body "अ" [] 0, Phase.body "आ" [] 0], true⟩ :=
    Step.titleCheckGo ["अ", "आ"] ["अ", "आ"] [] 0 0 [Phase.body "अ" [] 0] []
      true "आ" [] 0 (by decide)
  have st7 : Step P4 ⟨["अ", "आ"], ["अ", "आ"], [], 0, 0,
      [Phase.body "अ" [] 0, Phase.body "आ" [] 0], true⟩
      ⟨["अ", "आ"], ["अ", "आ"], ["आ"], 1, 0,
        [Phase.body "अ" [] 0, Phase.fetch [] 1], true⟩ :=
    Step.bodyWrite ["अ", "आ"] ["अ", "आ"] [] 0 0 [Phase.body "अ" [] 0] []
      true "आ" [] 0 raw51 raw51_long
  have hreach : Reach P4 (initSys [] 2)
      ⟨["अ", "आ"], ["अ", "आ"], ["आ"], 1, 0,
        [Phase.body "अ" [] 0, Phase.fetch [] 1], true⟩ :=
    Relation.ReflTransGen.head st1 (Relation.ReflTransGen.head st2
      (Relation.ReflTransGen.head st3 (Relation.ReflTransGen.head st4
        (Relation.ReflTransGen.head st5 (Relation.ReflTransGen.head st6
          (Relation.ReflTransGen.head st7 Relation.ReflTransGen.refl))))))
  have stW : Step P4 ⟨["अ", "आ"], ["अ", "आ"], ["आ"], 1, 0,
      [Phase.body "अ" [] 0, Phase.fetch [] 1], true⟩
      ⟨["अ", "आ"], ["अ", "आ"], ["आ", "अ"], 2, 0,
        [Phase.fetch [] 1, Phase.fetch [] 1], true⟩ :=
    Step.bodyWrite ["अ", "आ"] ["अ", "आ"] ["आ"] 1 0 [] [Phase.fetch [] 1]
      true "अ" [] 0 raw51 raw51_long
  have hfin := h P4 [] 2 _ _ hreach (by decide) stW
  exact absurd hfin (by decide)

end WikipediaDump
